import Mathlib

/-!
Verification of the Prompt Mixer core (src/app.js).

Strings are modelled as `List Char`.  The JavaScript whitespace class `\s`
(and `String.prototype.trim`) are modelled uniformly by the ASCII whitespace
predicate `isWS`; on the ASCII fragment both JS notions coincide with it.

The regex-based helpers of app.js are translated by their match semantics:
`hasOptionToken` builds the regex `(?:^|,\s*)OPT(?=\s*(?:,|$))` from the
escaped literal option and calls `.test`, i.e. asks for the existence of a
match position; `removeOptionToken` performs two `String.replace` passes
(anchored first-match, then a single left-to-right global pass) followed by
four tidy replaces and a final trim.  Greedy `\s*` with backtracking is
modelled exactly (largest whitespace count first).  The scanning replaces
are written with an explicit fuel argument equal to the input length, which
is always sufficient because every step consumes at least one character.
-/

abbrev Str := List Char

def isWS (c : Char) : Bool :=
  c = ' ' || c = '\t' || c = '\n' || c = '\r' || c = Char.ofNat 11 || c = Char.ofNat 12

/-- JS `String.prototype.trim`: drop whitespace from both ends. -/
def jsTrim (l : Str) : Str :=
  ((l.dropWhile isWS).reverse.dropWhile isWS).reverse

/-- `leadMatch pat l` is true when `pat` is an initial segment of `l`
(the literal-match core of every escaped-option regex). -/
def leadMatch : Str → Str → Bool
  | [], _ => true
  | _ :: _, [] => false
  | a :: as, b :: bs => a = b && leadMatch as bs

/-- The `(?:^|,\s*)` part of `tokenRegex`: position `p` is at the start of
the text, or scanning backwards over whitespace from `p` hits a comma. -/
def beforeSepOK (t : Str) (p : Nat) : Bool :=
  p = 0 ||
    (match (t.take p).reverse.dropWhile isWS with
     | ',' :: _ => true
     | _ => false)

/-- The lookahead `(?=\s*(?:,|$))`: after skipping whitespace the rest is
empty or starts with a comma. -/
def afterSepOK (s : Str) : Bool :=
  match s.dropWhile isWS with
  | [] => true
  | ',' :: _ => true
  | _ => false

/-- One match position of `tokenRegex(opt)` inside `t`: the option occurs
literally at `p`, anchored on both sides. -/
def matchesAt (t opt : Str) (p : Nat) : Bool :=
  leadMatch opt (t.drop p) && beforeSepOK t p && afterSepOK (t.drop (p + opt.length))

/-- `tokenRegex(opt).test t`: some match position exists. -/
def regexTest (t opt : Str) : Bool :=
  (List.range (t.length + 1)).any (fun p => matchesAt t opt p)

/-- app.js `hasOptionToken(text, opt)`. -/
def hasOptionToken (text opt : Str) : Bool :=
  let t := jsTrim text
  if t.isEmpty || opt.isEmpty then false else regexTest t opt

/-- The `text.replace(/,\s*$/, "")` step of `addOptionToken`: if the last
non-whitespace character is a comma, drop it and the trailing whitespace. -/
def stripTrailCommaWs (t : Str) : Str :=
  match t.reverse.dropWhile isWS with
  | ',' :: r => r.reverse
  | _ => t

/-- app.js `addOptionToken(text, opt)`. -/
def addOptionToken (text opt : Str) : Str :=
  let t := jsTrim text
  if opt.isEmpty then t
  else if hasOptionToken t opt then t
  else if t.isEmpty then opt
  else
    let base := jsTrim (stripTrailCommaWs t)
    if base.isEmpty then opt else base ++ ',' :: ' ' :: opt

/-- Step 1 of `removeOptionToken`: `t.replace(^OPT\s*(?:,\s*)?, "")` —
remove the option at the start, eat following whitespace and, if present,
one separator comma plus its whitespace. -/
def removeAtStart (t opt : Str) : Str :=
  if leadMatch opt t then
    let r := (t.drop opt.length).dropWhile isWS
    match r with
    | ',' :: r2 => r2.dropWhile isWS
    | _ => r
  else t

/-- Backtracking of the greedy `\s*` in `(?:,\s*)OPT`: try the largest
whitespace count `k` first, down to zero; on success return the remainder
of the text after the consumed match. -/
def greedyTail (opt rest : Str) : Nat → Option Str
  | 0 => if leadMatch opt rest then some (rest.drop opt.length) else none
  | Nat.succ k =>
      if leadMatch opt (rest.drop (Nat.succ k)) then
        some ((rest.drop (Nat.succ k)).drop opt.length)
      else greedyTail opt rest k

/-- Step 2 of `removeOptionToken`: the single left-to-right pass of
`t.replace(/(?:,\s*)OPT/g, "")`.  At each comma the engine tries to match
`,\s*OPT` (greedy whitespace); a successful match is consumed and scanning
resumes after it. -/
def replaceStep2Go (opt : Str) : Nat → Str → Str
  | 0, l => l
  | _ + 1, [] => []
  | n + 1, c :: rest =>
    if c = ',' then
      match greedyTail opt rest (rest.takeWhile isWS).length with
      | some rem => replaceStep2Go opt n rem
      | none => c :: replaceStep2Go opt n rest
    else c :: replaceStep2Go opt n rest

def replaceStep2 (opt l : Str) : Str := replaceStep2Go opt l.length l

/-- Tidy `t.replace(/^\s*,\s*/, "")`. -/
def stripLeadSep (t : Str) : Str :=
  match t.dropWhile isWS with
  | ',' :: r => r.dropWhile isWS
  | _ => t

/-- Tidy `t.replace(/\s*,\s*$/, "")`: if the last non-whitespace character
is a comma, remove it together with the whitespace on both of its sides. -/
def stripTrailSep (t : Str) : Str :=
  match t.reverse.dropWhile isWS with
  | ',' :: r => (r.dropWhile isWS).reverse
  | _ => t

/-- Tidy `t.replace(/,\s*,+/g, ", ")`: single pass; at a comma followed
(after greedy whitespace) by at least one more comma, the whole
`,\s*,+` group is replaced by a canonical `", "`. -/
def collapseCommasGo : Nat → Str → Str
  | 0, l => l
  | _ + 1, [] => []
  | n + 1, c :: rest =>
    if c = ',' then
      match rest.drop (rest.takeWhile isWS).length with
      | ',' :: a2 => ',' :: ' ' :: collapseCommasGo n (a2.drop (a2.takeWhile (fun x => x = ',')).length)
      | _ => c :: collapseCommasGo n rest
    else c :: collapseCommasGo n rest

def collapseCommas (l : Str) : Str := collapseCommasGo l.length l

/-- Tidy `t.replace(/\s{2,}/g, " ")`: every maximal whitespace run of
length at least two becomes a single space. -/
def collapseWsGo : Nat → Str → Str
  | 0, l => l
  | _ + 1, [] => []
  | n + 1, c :: rest =>
    if isWS c then
      match (rest.takeWhile isWS).length with
      | 0 => c :: collapseWsGo n rest
      | Nat.succ k => ' ' :: collapseWsGo n (rest.drop (Nat.succ k))
    else c :: collapseWsGo n rest

def collapseWs (l : Str) : Str := collapseWsGo l.length l

/-- app.js `removeOptionToken(text, opt)`. -/
def removeOptionToken (text opt : Str) : Str :=
  let t := jsTrim text
  if t.isEmpty || opt.isEmpty then t
  else
    jsTrim (collapseWs (collapseCommas (stripTrailSep (stripLeadSep
      (replaceStep2 opt (removeAtStart t opt))))))

-- quick sanity checks of the embedding against hand-evaluated app.js runs
example : addOptionToken ("x".toList) ("y".toList) = "x, y".toList := by decide
example : addOptionToken ("".toList) ("y".toList) = "y".toList := by decide
example : removeOptionToken ("x, y".toList) ("y".toList) = "x".toList := by decide
example : removeOptionToken ("brutalist, neo-futurist, glassy".toList) ("brutalist".toList)
    = "neo-futurist, glassy".toList := by decide
example : hasOptionToken ("brutalist, hand-carved stone".toList) ("brutalist".toList) = true := by
  decide
example : hasOptionToken ("a, abb".toList) ("ab".toList) = false := by decide
example : removeOptionToken ("a, a".toList) ("a".toList) = "a".toList := by decide
example : removeOptionToken ("a  a".toList) ("a a".toList) = "a a".toList := by decide

/-!  ## State model: categories, per-category outputs, history  -/

structure Category where
  id : Str
  name : Str
  options : List Str
  selected : List Nat
  deriving Repr, DecidableEq

/-- app.js per-category output record `{ text, dirty, undo: [], lastValue }`
(`lastValue` is the spec's `lastObservedValue`). -/
structure OutputEntry where
  text : Str
  dirty : Bool
  undo : List Str
  lastValue : Str
  deriving Repr, DecidableEq

/-- app.js `reconcileSelectionFromText`: the selection derived from free
text — every index whose (truthy) option occurs as a token. -/
def reconcileSelectionFromText (options : List Str) (text : Str) : List Nat :=
  (List.range options.length).filter
    (fun i => !(options.getD i []).isEmpty && hasOptionToken text (options.getD i []))

/-- app.js `pushUndo`: append, keep only the most recent 120 entries. -/
def pushUndo (undo : List Str) (prevText : Str) : List Str :=
  let u := undo ++ [prevText]
  if u.length > 120 then u.drop 1 else u

/-- app.js `applyLeftToggle(cat, idx, checked)`: checkbox toggle.  A falsy
(out-of-range or empty) option is a complete no-op; otherwise the next text
is computed by the mutators, the previous text is pushed onto the undo
stack only when the text changes, and the selection is reconciled. -/
def applyLeftToggle (cat : Category) (out : OutputEntry) (idx : Nat) (checked : Bool) :
    Category × OutputEntry :=
  let opt := cat.options.getD idx []
  if opt.isEmpty then (cat, out)
  else
    let prev := out.text
    let next := if checked then addOptionToken prev opt else removeOptionToken prev opt
    let undo' := if next ≠ prev then pushUndo out.undo prev else out.undo
    ({ cat with selected := reconcileSelectionFromText cat.options next },
     { text := next, dirty := true, undo := undo', lastValue := next })

/-- app.js `applyLeftAllClear(cat, selectAll)`: add (or remove) every truthy
option token in list order; one undo push for the whole batch, only when
the net text changed. -/
def applyLeftAllClear (cat : Category) (out : OutputEntry) (selectAll : Bool) :
    Category × OutputEntry :=
  let prev := out.text
  let opts := cat.options.filter (fun o => !o.isEmpty)
  let next := if selectAll then opts.foldl addOptionToken prev
              else opts.foldl removeOptionToken prev
  let undo' := if next ≠ prev then pushUndo out.undo prev else out.undo
  ({ cat with selected := reconcileSelectionFromText cat.options next },
   { text := next, dirty := true, undo := undo', lastValue := next })

/-- The textarea `input` handler in app.js `renderOutputs` (the spec's
`setFromEdit`): push `lastValue` only when it differs from the new value,
set text and `lastValue`, reconcile. -/
def applyTextInput (cat : Category) (out : OutputEntry) (v : Str) :
    Category × OutputEntry :=
  let undo' := if out.lastValue ≠ v then pushUndo out.undo out.lastValue else out.undo
  ({ cat with selected := reconcileSelectionFromText cat.options v },
   { text := v, dirty := true, undo := undo', lastValue := v })

/-- app.js `clearOutput`: unconditional undo push, empty text, reconcile. -/
def clearOutput (cat : Category) (out : OutputEntry) : Category × OutputEntry :=
  let undo' := pushUndo out.undo out.text
  ({ cat with selected := reconcileSelectionFromText cat.options [] },
   { text := [], dirty := true, undo := undo', lastValue := [] })

/-- app.js `undoOutput`: no-op on an empty stack, otherwise pop the most
recent entry, restore it as the text, and reconcile. -/
def undoOutput (cat : Category) (out : OutputEntry) : Category × OutputEntry :=
  if out.undo.isEmpty then (cat, out)
  else
    let prev := out.undo.getLastD []
    ({ cat with selected := reconcileSelectionFromText cat.options prev },
     { text := prev, dirty := true, undo := out.undo.dropLast, lastValue := prev })

/-- The state-changing core of app.js `saveBulkModal`: replace the option
list with the trimmed non-blank lines, keep the old name when the new one
trims to nothing, and reconcile the selection from the existing text. -/
def saveBulkOptions (cat : Category) (out : OutputEntry) (nameInput : Str)
    (lines : List Str) : Category :=
  let name' := if (jsTrim nameInput).isEmpty then cat.name else jsTrim nameInput
  let options' := (lines.map jsTrim).filter (fun s => !s.isEmpty)
  { cat with name := name', options := options',
             selected := reconcileSelectionFromText options' out.text }

/-- The per-category part of app.js `init`: ensure an output entry exists
(empty when missing), then reconcile the selection from the stored text —
but only when that text is a nonempty string. -/
def initReconcileCat (cat : Category) (stored : Option OutputEntry) :
    Category × OutputEntry :=
  let out := stored.getD { text := [], dirty := false, undo := [], lastValue := [] }
  if !out.text.isEmpty then
    ({ cat with selected := reconcileSelectionFromText cat.options out.text }, out)
  else (cat, out)

structure HistoryEntry where
  id : Str
  time : Str
  text : Str
  deriving Repr, DecidableEq

/-- JS `String(n).padStart(2, "0")` for a nonnegative integer. -/
def pad2 (n : Nat) : Str :=
  let ds := Nat.toDigits 10 n
  if ds.length < 2 then '0' :: ds else ds

/-- app.js `nowTime()`, with the clock reading `(h, m, s)` made explicit. -/
def nowTime (h m s : Nat) : Str :=
  pad2 h ++ ':' :: (pad2 m ++ ':' :: pad2 s)

/-- app.js `saveSnapshot`: reject a summary that trims to nothing (alert,
history untouched — modelled as `none`), otherwise prepend one entry with
the fresh id, the formatted clock time, and the trimmed summary. -/
def saveSnapshot (summaryVal : Str) (freshId : Str) (h m s : Nat)
    (hist : List HistoryEntry) : Option (List HistoryEntry) :=
  let summary := jsTrim summaryVal
  if summary.isEmpty then none
  else some ({ id := freshId, time := nowTime h m s, text := summary } :: hist)

/-- Iterated `removeOptionToken` (not a function of app.js, used to state
what repeated removal achieves). -/
def removeFix (fuel : Nat) (t opt : Str) : Str :=
  match fuel with
  | 0 => t
  | Nat.succ n => if hasOptionToken t opt then removeFix n (removeOptionToken t opt) opt else t

-- state-model sanity checks
example : (applyLeftToggle ⟨"c".toList, "Style".toList, ["brutalist".toList], []⟩
    ⟨[], false, [], []⟩ 0 true).2.text = "brutalist".toList := by decide
example : (undoOutput ⟨"c".toList, "n".toList, ["a".toList], [0]⟩
    ⟨"a".toList, true, ["".toList], "a".toList⟩).2.text = [] := by decide

/-!  ## Basic string lemmas  -/

theorem leadMatch_iff (p l : Str) : leadMatch p l = true ↔ ∃ s, l = p ++ s := by
  induction p generalizing l with
  | nil => simp [leadMatch]
  | cons a as ih =>
    cases l with
    | nil => simp [leadMatch]
    | cons b bs =>
      simp only [leadMatch, Bool.and_eq_true, decide_eq_true_eq, ih, List.cons_append]
      constructor
      · rintro ⟨rfl, s, rfl⟩; exact ⟨s, rfl⟩
      · rintro ⟨s, h⟩
        injection h with h1 h2
        exact ⟨h1.symm, s, h2⟩

theorem leadMatch_append (p s : Str) : leadMatch p (p ++ s) = true :=
  (leadMatch_iff p (p ++ s)).mpr ⟨s, rfl⟩

theorem leadMatch_self (p : Str) : leadMatch p p = true := by
  have := leadMatch_append p []
  simpa using this

theorem leadMatch_length {p l : Str} (h : leadMatch p l = true) : p.length ≤ l.length := by
  rcases (leadMatch_iff p l).mp h with ⟨s, rfl⟩
  simp

theorem dw_cons_false {p : Char → Bool} {c : Char} {r : Str} (h : p c = false) :
    (c :: r).dropWhile p = c :: r := by
  simp [List.dropWhile_cons, h]

theorem dropWhile_head_false {p : Char → Bool} {l : Str} {c : Char} {r : Str}
    (h : l.dropWhile p = c :: r) : p c = false := by
  induction l with
  | nil => simp at h
  | cons a as ih =>
    by_cases hp : p a
    · rw [List.dropWhile_cons, if_pos hp] at h; exact ih h
    · rw [List.dropWhile_cons, if_neg hp] at h
      injection h with h1 _
      subst h1
      exact Bool.of_not_eq_true hp

theorem dropWhile_idem (p : Char → Bool) (l : Str) :
    (l.dropWhile p).dropWhile p = l.dropWhile p := by
  cases h : l.dropWhile p with
  | nil => simp
  | cons c r =>
    have := dropWhile_head_false h
    simp [List.dropWhile_cons, this]

theorem dropWhile_length_le (p : Char → Bool) (l : Str) :
    (l.dropWhile p).length ≤ l.length := by
  induction l with
  | nil => simp
  | cons a as ih =>
    by_cases hp : p a
    · rw [List.dropWhile_cons, if_pos hp]; exact Nat.le_succ_of_le ih
    · rw [List.dropWhile_cons, if_neg hp]

/-- `dropWhile` returns a suffix: the dropped prefix is `takeWhile`. -/
theorem dropWhile_suffix_decomp (p : Char → Bool) (l : Str) :
    l = l.takeWhile p ++ l.dropWhile p := (List.takeWhile_append_dropWhile p l).symm

theorem mem_takeWhile_sat {p : Char → Bool} {l : Str} {c : Char}
    (h : c ∈ l.takeWhile p) : p c = true := by
  induction l with
  | nil => simp at h
  | cons a as ih =>
    by_cases hp : p a
    · rw [List.takeWhile_cons, if_pos hp] at h
      rcases List.mem_cons.mp h with rfl | h2
      · exact hp
      · exact ih h2
    · rw [List.takeWhile_cons, if_neg hp] at h; simp at h

/-- If every element of `l1` satisfies `p`, `takeWhile` walks through it. -/
theorem takeWhile_append_all {p : Char → Bool} {l1 : Str} (l2 : Str)
    (h : ∀ c ∈ l1, p c = true) :
    (l1 ++ l2).takeWhile p = l1 ++ l2.takeWhile p := by
  induction l1 with
  | nil => simp
  | cons a as ih =>
    have ha : p a = true := h a (List.mem_cons_self a as)
    simp only [List.cons_append, List.takeWhile_cons, ha, if_true]
    rw [ih (fun c hc => h c (List.mem_cons_of_mem a hc))]

/-- If every element of `l1` satisfies `p`, `dropWhile` skips it. -/
theorem dropWhile_append_all {p : Char → Bool} {l1 : Str} (l2 : Str)
    (h : ∀ c ∈ l1, p c = true) :
    (l1 ++ l2).dropWhile p = l2.dropWhile p := by
  induction l1 with
  | nil => simp
  | cons a as ih =>
    have ha : p a = true := h a (List.mem_cons_self a as)
    simp only [List.cons_append, List.dropWhile_cons, ha, if_true]
    exact ih (fun c hc => h c (List.mem_cons_of_mem a hc))

/-- A `takeWhile` over an append cannot run past a failing element of the
second part's head position; in particular its length is bounded by `l1`
when the first element of `l2` fails `p`. -/
theorem takeWhile_append_length_le {p : Char → Bool} (l1 : Str) {c : Char} (l2 : Str)
    (hc : p c = false) : ((l1 ++ c :: l2).takeWhile p).length ≤ l1.length := by
  induction l1 with
  | nil => simp [List.takeWhile_cons, hc]
  | cons a as ih =>
    by_cases hp : p a
    · simp only [List.cons_append, List.takeWhile_cons, hp, if_true, List.length_cons]
      exact Nat.succ_le_succ ih
    · simp [List.cons_append, List.takeWhile_cons, hp]

/-!  ### jsTrim facts  -/

/-- Trimming the back of a front-clean list keeps it front-clean. -/
theorem rev_dropWhile_rev_front (p : Char → Bool) (X : Str) (hX : X.dropWhile p = X) :
    (X.reverse.dropWhile p).reverse.dropWhile p = (X.reverse.dropWhile p).reverse := by
  have hdecomp : X.reverse = X.reverse.takeWhile p ++ X.reverse.dropWhile p :=
    dropWhile_suffix_decomp p X.reverse
  cases hrc : (X.reverse.dropWhile p).reverse with
  | nil => simp
  | cons c r =>
    have h1 : X = (X.reverse.dropWhile p).reverse ++ (X.reverse.takeWhile p).reverse := by
      have h0 := congrArg List.reverse hdecomp
      rw [List.reverse_append] at h0
      rw [List.reverse_reverse] at h0
      exact h0
    rw [hrc] at h1
    have hXeq : X = c :: (r ++ (X.reverse.takeWhile p).reverse) := by simpa using h1
    have hcfalse : p c = false := by
      by_cases h : p c
      · exfalso
        have hXdw := hX
        rw [hXeq, List.dropWhile_cons, if_pos h] at hXdw
        have hle : ((r ++ (X.reverse.takeWhile p).reverse).dropWhile p).length
            ≤ (r ++ (X.reverse.takeWhile p).reverse).length := dropWhile_length_le _ _
        have h2 := congrArg List.length hXdw
        simp only [List.length_cons] at h2
        omega
      · exact Bool.of_not_eq_true h
    exact dw_cons_false hcfalse

theorem jsTrim_front (l : Str) : (jsTrim l).dropWhile isWS = jsTrim l := by
  unfold jsTrim
  exact rev_dropWhile_rev_front isWS (l.dropWhile isWS) (dropWhile_idem isWS l)

theorem jsTrim_back (l : Str) : (jsTrim l).reverse.dropWhile isWS = (jsTrim l).reverse := by
  unfold jsTrim
  rw [List.reverse_reverse]
  exact dropWhile_idem isWS _

theorem jsTrim_eq_self {l : Str} (hf : l.dropWhile isWS = l)
    (hb : l.reverse.dropWhile isWS = l.reverse) : jsTrim l = l := by
  unfold jsTrim
  rw [hf, hb, List.reverse_reverse]

theorem jsTrim_idem (l : Str) : jsTrim (jsTrim l) = jsTrim l :=
  jsTrim_eq_self (jsTrim_front l) (jsTrim_back l)

theorem jsTrim_length_le (l : Str) : (jsTrim l).length ≤ l.length := by
  unfold jsTrim
  calc ((l.dropWhile isWS).reverse.dropWhile isWS).reverse.length
      = ((l.dropWhile isWS).reverse.dropWhile isWS).length := by simp
    _ ≤ (l.dropWhile isWS).reverse.length := dropWhile_length_le _ _
    _ = (l.dropWhile isWS).length := by simp
    _ ≤ l.length := dropWhile_length_le _ _

/-- A cons with non-whitespace head and last element is its own trim. -/
theorem jsTrim_eq_self_of_ends {l : Str} {c d : Char} {m : Str}
    (hform : l = c :: m ++ [d]) (hc : isWS c = false) (hd : isWS d = false) :
    jsTrim l = l := by
  apply jsTrim_eq_self
  · rw [hform]; exact dw_cons_false hc
  · rw [hform]
    have : (c :: m ++ [d]).reverse = d :: (m.reverse ++ [c]) := by simp
    rw [this, dw_cons_false hd, ← this]

theorem isEmpty_eq_true_iff {α : Type} (l : List α) : l.isEmpty = true ↔ l = [] := by
  cases l <;> simp [List.isEmpty]

theorem isEmpty_eq_false_iff {α : Type} (l : List α) : l.isEmpty = false ↔ l ≠ [] := by
  cases l <;> simp [List.isEmpty]

theorem front_clean_head {l : Str} {c : Char} {r : Str}
    (h : l.dropWhile isWS = l) (hl : l = c :: r) : isWS c = false := by
  subst hl
  by_cases hws : isWS c
  · exfalso
    rw [List.dropWhile_cons, if_pos hws] at h
    have := congrArg List.length h
    have hle := dropWhile_length_le isWS r
    simp only [List.length_cons] at this
    omega
  · exact Bool.of_not_eq_true hws

/-!  ## Token matcher and `addOptionToken` lemmas  -/

theorem hasOptionToken_trim (text opt : Str) :
    hasOptionToken (jsTrim text) opt = hasOptionToken text opt := by
  simp [hasOptionToken, jsTrim_idem]

theorem regexTest_of_matchesAt {t opt : Str} {p : Nat} (hp : p ≤ t.length)
    (h : matchesAt t opt p = true) : regexTest t opt = true := by
  unfold regexTest
  rw [List.any_eq_true]
  exact ⟨p, List.mem_range.mpr (Nat.lt_succ_of_le hp), h⟩

/-- On a trimmed nonempty option, the matcher accepts the option itself. -/
theorem hasOptionToken_self {o : Str} (ho : jsTrim o = o) (hone : o ≠ []) :
    hasOptionToken o o = true := by
  unfold hasOptionToken
  rw [ho]
  rw [if_neg]
  · apply regexTest_of_matchesAt (Nat.zero_le o.length)
    unfold matchesAt beforeSepOK afterSepOK
    rw [List.drop_zero, leadMatch_self, Nat.zero_add, List.drop_length]
    simp
  · simp [isEmpty_eq_true_iff, hone]

/-- `base ++ ", " ++ o` is its own trim when `base` is front-clean and
nonempty and `o` is back-clean and nonempty. -/
theorem jsTrim_append_sep {base o : Str}
    (hbf : base.dropWhile isWS = base) (hbne : base ≠ [])
    (hob : o.reverse.dropWhile isWS = o.reverse) (hone : o ≠ []) :
    jsTrim (base ++ ',' :: ' ' :: o) = base ++ ',' :: ' ' :: o := by
  apply jsTrim_eq_self
  · cases hb : base with
    | nil => exact absurd hb hbne
    | cons c bs =>
      have hc := front_clean_head hbf hb
      exact dw_cons_false hc
  · have hrev : (base ++ ',' :: ' ' :: o).reverse
        = o.reverse ++ ([' ', ','] ++ base.reverse) := by
      simp
    cases hor : o.reverse with
    | nil => exact absurd (List.reverse_eq_nil_iff.mp hor) hone
    | cons d os =>
      have hd := front_clean_head hob hor
      rw [hrev, hor]
      exact dw_cons_false hd

/-- The matcher accepts a trimmed nonempty option appended after
`base ++ ", "` for any front-clean nonempty `base`. -/
theorem hasOptionToken_append_end {base o : Str}
    (hbf : base.dropWhile isWS = base) (hbne : base ≠ [])
    (hob : o.reverse.dropWhile isWS = o.reverse)
    (hone : o ≠ []) :
    hasOptionToken (base ++ ',' :: ' ' :: o) o = true := by
  have hrtrim : jsTrim (base ++ ',' :: ' ' :: o) = base ++ ',' :: ' ' :: o :=
    jsTrim_append_sep hbf hbne hob hone

  unfold hasOptionToken
  rw [hrtrim]
  rw [if_neg]
  · have hple : base.length + 2 ≤ (base ++ ',' :: ' ' :: o).length := by
      simp only [List.length_append, List.length_cons]
      omega
    have hassoc : base ++ ',' :: ' ' :: o = (base ++ [',', ' ']) ++ o := by simp
    have hlen2 : (base ++ [',', ' ']).length = base.length + 2 := by simp
    have hdrop : (base ++ ',' :: ' ' :: o).drop (base.length + 2) = o := by
      rw [hassoc, ← hlen2, List.drop_left]
    have htake : (base ++ ',' :: ' ' :: o).take (base.length + 2) = base ++ [',', ' '] := by
      rw [hassoc, ← hlen2, List.take_left]
    have hbefore : beforeSepOK (base ++ ',' :: ' ' :: o) (base.length + 2) = true := by
      unfold beforeSepOK
      rw [htake]
      have hrev2 : (base ++ [',', ' ']).reverse = ' ' :: ',' :: base.reverse := by simp
      rw [hrev2, List.dropWhile_cons, if_pos (by decide : isWS ' ' = true)]
      rw [dw_cons_false (by decide : isWS ',' = false)]
      simp
    have hafter : afterSepOK ((base ++ ',' :: ' ' :: o).drop (base.length + 2 + o.length)) = true := by
      have hnil : (base ++ ',' :: ' ' :: o).drop (base.length + 2 + o.length) = [] := by
        apply List.drop_eq_nil_of_le
        simp only [List.length_append, List.length_cons]
        omega
      rw [hnil]
      rfl
    have hmatch : matchesAt (base ++ ',' :: ' ' :: o) o (base.length + 2) = true := by
      unfold matchesAt
      rw [hdrop, leadMatch_self, hbefore, hafter]
      simp
    exact regexTest_of_matchesAt hple hmatch
  · simp only [isEmpty_eq_true_iff, Bool.or_eq_true]
    rintro (h | h)
    · simp at h
    · exact hone h

/-- Amended C5 core: for a trimmed, nonempty option the matcher always
finds the option after `addOptionToken`. -/
theorem hasOptionToken_addOptionToken (t : Str) {o : Str}
    (ho : jsTrim o = o) (hone : o ≠ []) :
    hasOptionToken (addOptionToken t o) o = true := by
  have hoe : o.isEmpty = false := (isEmpty_eq_false_iff o).mpr hone
  have hob : o.reverse.dropWhile isWS = o.reverse := by
    have := jsTrim_back o
    rwa [ho] at this
  unfold addOptionToken
  rw [hoe]
  simp only [Bool.false_eq_true, if_false]
  by_cases h1 : hasOptionToken (jsTrim t) o = true
  · rw [if_pos h1]
    exact h1
  · rw [if_neg h1]
    by_cases h2 : (jsTrim t).isEmpty = true
    · rw [if_pos h2]
      exact hasOptionToken_self ho hone
    · rw [if_neg h2]
      by_cases h3 : (jsTrim (stripTrailCommaWs (jsTrim t))).isEmpty = true
      · rw [if_pos h3]
        exact hasOptionToken_self ho hone
      · rw [if_neg h3]
        exact hasOptionToken_append_end (jsTrim_front _)
          ((isEmpty_eq_false_iff _).mp (Bool.of_not_eq_true h3)) hob hone

/-- A successful match forces both gate conditions of the matcher open. -/
theorem hasOptionToken_gates {x o : Str} (h : hasOptionToken x o = true) :
    (jsTrim x).isEmpty = false ∧ o.isEmpty = false := by
  have h1 : ¬(((jsTrim x).isEmpty || o.isEmpty) = true) := by
    intro hc
    unfold hasOptionToken at h
    rw [if_pos hc] at h
    exact Bool.false_ne_true h
  simp only [Bool.or_eq_true, not_or] at h1
  exact ⟨Bool.eq_false_iff.mpr h1.1, Bool.eq_false_iff.mpr h1.2⟩

/-- When the option is already present, `addOptionToken` returns the
trimmed text. -/
theorem addOptionToken_of_hasToken {text o : Str}
    (h : hasOptionToken text o = true) : addOptionToken text o = jsTrim text := by
  have hoe : o.isEmpty = false := (hasOptionToken_gates h).2
  have h1 : hasOptionToken (jsTrim text) o = true := by
    rwa [hasOptionToken_trim]
  unfold addOptionToken
  rw [hoe]
  simp only [Bool.false_eq_true, if_false]
  rw [if_pos h1]

/-- The result of `addOptionToken` is trimmed whenever the option is. -/
theorem addOptionToken_trimmed (t : Str) {o : Str} (ho : jsTrim o = o) :
    jsTrim (addOptionToken t o) = addOptionToken t o := by
  have hob : o.reverse.dropWhile isWS = o.reverse := by
    have := jsTrim_back o
    rwa [ho] at this
  unfold addOptionToken
  by_cases h0 : o.isEmpty = true
  · rw [if_pos h0]; exact jsTrim_idem t
  · rw [if_neg h0]
    have hone : o ≠ [] := (isEmpty_eq_false_iff o).mp (Bool.of_not_eq_true h0)
    by_cases h1 : hasOptionToken (jsTrim t) o = true
    · rw [if_pos h1]; exact jsTrim_idem t
    · rw [if_neg h1]
      by_cases h2 : (jsTrim t).isEmpty = true
      · rw [if_pos h2]; exact ho
      · rw [if_neg h2]
        by_cases h3 : (jsTrim (stripTrailCommaWs (jsTrim t))).isEmpty = true
        · rw [if_pos h3]; exact ho
        · rw [if_neg h3]
          exact jsTrim_append_sep (jsTrim_front _)
            ((isEmpty_eq_false_iff _).mp (Bool.of_not_eq_true h3)) hob hone

/-!  ## Claims C4, C5, C6  -/

/-- C5 counterexample: the spec property `hasToken(addToken(t,o), o) == true`
for **every** option string fails for an option with surrounding whitespace
(`addOptionToken "" " a " = " a "`, but the matcher trims the text to `"a"`
which does not contain the literal `" a "`). -/
theorem claim_C5_counterexample :
    hasOptionToken (addOptionToken ("".toList) (" a ".toList)) (" a ".toList) = false := by
  decide

/-- C5 (amended): for every text `t` and every *nonempty, trimmed* option
`o` (every option the bulk editor can produce), the matcher finds the
option after `addOptionToken`: `hasToken(addToken(t,o), o) == true`. -/
theorem claim_C5_hasToken_after_add (t o : Str) (ho : jsTrim o = o) (hone : o ≠ []) :
    hasOptionToken (addOptionToken t o) o = true :=
  hasOptionToken_addOptionToken t ho hone

theorem claim_C5_witness :
    jsTrim ("a".toList) = "a".toList ∧ ("a".toList ≠ ([] : Str)) ∧
      hasOptionToken (addOptionToken ("x".toList) ("a".toList)) ("a".toList) = true :=
  ⟨by decide, by decide,
    claim_C5_hasToken_after_add ("x".toList) ("a".toList) (by decide) (by decide)⟩

/-- C6 counterexample: when the option is already present, `addOptionToken`
returns the *trimmed* text, not necessarily the exact same string: on
`" a"` with option `"a"` the matcher finds the token yet the function
returns `"a" ≠ " a"`. -/
theorem claim_C6_counterexample :
    hasOptionToken (" a".toList) ("a".toList) = true ∧
      addOptionToken (" a".toList) ("a".toList) ≠ " a".toList := by
  constructor
  · decide
  · decide

/-- C6 (amended): when the option is already present per the Token Matcher,
`addOptionToken` returns the trimmed input text `t.trim()`; this is the
input itself exactly when the input carries no surrounding whitespace. -/
theorem claim_C6_add_present_returns_trim (text o : Str)
    (h : hasOptionToken text o = true) : addOptionToken text o = jsTrim text :=
  addOptionToken_of_hasToken h

theorem claim_C6_witness :
    hasOptionToken ("a".toList) ("a".toList) = true ∧
      addOptionToken ("a".toList) ("a".toList) = jsTrim ("a".toList) :=
  ⟨by decide, claim_C6_add_present_returns_trim ("a".toList) ("a".toList) (by decide)⟩

/-- C4 counterexample: `removeOptionToken` is *not* idempotent.  On the
text `"a, a"` with option `"a"`, one removal eats the separator of the
first token and leaves `"a"`; removing again yields `""`. -/
theorem claim_C4_counterexample :
    removeOptionToken (removeOptionToken ("a, a".toList) ("a".toList)) ("a".toList)
      ≠ removeOptionToken ("a, a".toList) ("a".toList) := by
  decide

/-- C4 (amended): `addOptionToken` is idempotent for every text whenever
the option is its own trim (true of every option the app can store);
`removeOptionToken` is not idempotent in general (see the counterexample). -/
theorem claim_C4_add_idempotent (t o : Str) (ho : jsTrim o = o) :
    addOptionToken (addOptionToken t o) o = addOptionToken t o := by
  by_cases hoe : o.isEmpty = true
  · have hnil : o = [] := (isEmpty_eq_true_iff o).mp hoe
    subst hnil
    show addOptionToken (addOptionToken t []) [] = addOptionToken t []
    unfold addOptionToken
    simp [jsTrim_idem]
  · have hone : o ≠ [] := (isEmpty_eq_false_iff o).mp (Bool.of_not_eq_true hoe)
    have htok : hasOptionToken (addOptionToken t o) o = true :=
      hasOptionToken_addOptionToken t ho hone
    have := addOptionToken_of_hasToken htok
    rwa [addOptionToken_trimmed t ho] at this

theorem claim_C4_witness :
    jsTrim ("a".toList) = "a".toList ∧
      addOptionToken (addOptionToken ("x".toList) ("a".toList)) ("a".toList)
        = addOptionToken ("x".toList) ("a".toList) :=
  ⟨by decide, claim_C4_add_idempotent ("x".toList) ("a".toList) (by decide)⟩

/-!  ## Claim C10: shape of the reconciled selection  -/

/-- C10: the reconciled selection is strictly increasing (hence
duplicate-free), every index is in bounds, and an index whose option is the
empty (falsy) string is never selected. -/
theorem claim_C10_reconcile_wellformed (options : List Str) (text : Str) :
    (reconcileSelectionFromText options text).Pairwise (· < ·) ∧
    (reconcileSelectionFromText options text).Nodup ∧
    ∀ i ∈ reconcileSelectionFromText options text,
      i < options.length ∧ options.getD i [] ≠ [] := by
  have hpw : (reconcileSelectionFromText options text).Pairwise (· < ·) :=
    List.Pairwise.sublist (List.filter_sublist _) (List.pairwise_lt_range options.length)
  refine ⟨hpw, hpw.imp (fun hab => Nat.ne_of_lt hab), ?_⟩
  intro i hi
  rw [reconcileSelectionFromText, List.mem_filter] at hi
  obtain ⟨hr, hp⟩ := hi
  simp only [Bool.and_eq_true, Bool.not_eq_true'] at hp
  exact ⟨List.mem_range.mp hr, (isEmpty_eq_false_iff _).mp hp.1⟩

/-!  ## Claim C9: snapshot saving  -/

/-- C9: `saveSnapshot` fails (history untouched) exactly when the summary
trims to nothing; otherwise it prepends exactly one new entry carrying the
fresh id, the `HH:MM:SS`-formatted clock reading, and the trimmed summary,
so the resulting list is most-recent-first. -/
theorem claim_C9_saveSnapshot (summaryVal freshId : Str) (h m s : Nat)
    (hist : List HistoryEntry) :
    (saveSnapshot summaryVal freshId h m s hist = none ↔ jsTrim summaryVal = []) ∧
    (∀ hist', saveSnapshot summaryVal freshId h m s hist = some hist' →
      hist' = { id := freshId, time := nowTime h m s, text := jsTrim summaryVal } :: hist) := by
  unfold saveSnapshot
  by_cases hc : (jsTrim summaryVal).isEmpty = true
  · rw [if_pos hc]
    refine ⟨⟨fun _ => (isEmpty_eq_true_iff _).mp hc, fun _ => rfl⟩, ?_⟩
    intro hist' hcontra
    exact absurd hcontra (by simp)
  · rw [if_neg hc]
    constructor
    · constructor
      · intro hcontra; exact absurd hcontra (by simp)
      · intro hnil
        exact absurd ((isEmpty_eq_true_iff _).mpr hnil) hc
    · intro hist' heq
      exact (Option.some.inj heq).symm

theorem claim_C9_witness :
    (saveSnapshot (" ".toList) ("h1".toList) 9 5 3 [] = none ↔ jsTrim (" ".toList) = []) ∧
    (saveSnapshot ("a".toList) ("h1".toList) 9 5 3 [] =
      some [{ id := "h1".toList, time := nowTime 9 5 3, text := jsTrim ("a".toList) }]) := by
  constructor
  · exact (claim_C9_saveSnapshot (" ".toList) ("h1".toList) 9 5 3 []).1
  · decide

/-!  ## Claim C7: the `next == prevText` toggle  -/

/-- C7 counterexample: with empty text, removing an (absent) option
computes `next == prevText`, yet the toggle still flips `dirty` from
`false` to `true` — so it is not a complete no-op on the output record. -/
theorem claim_C7_counterexample :
    removeOptionToken ([] : Str) ("a".toList) = ([] : Str) ∧
    (⟨[], false, [], []⟩ : OutputEntry).dirty = false ∧
    (applyLeftToggle ⟨"c".toList, "n".toList, ["a".toList], []⟩
      ⟨[], false, [], []⟩ 0 false).2.dirty = true := by
  decide

/-- C7 (amended): when the toggled option is truthy and the computed next
text equals the previous text, `applyLeftToggle` pushes nothing and leaves
the text unchanged — but it still sets `dirty := true`, resets
`lastObservedValue` to the (unchanged) text, and re-reconciles the
selection; it is a no-op only on the text and the undo stack. -/
theorem claim_C7_toggle_same_text (cat : Category) (out : OutputEntry) (idx : Nat)
    (checked : Bool)
    (hopt : (cat.options.getD idx []).isEmpty = false)
    (hnext : (if checked then addOptionToken out.text (cat.options.getD idx [])
              else removeOptionToken out.text (cat.options.getD idx [])) = out.text) :
    (applyLeftToggle cat out idx checked).2.undo = out.undo ∧
    (applyLeftToggle cat out idx checked).2.text = out.text ∧
    (applyLeftToggle cat out idx checked).2.lastValue = out.text ∧
    (applyLeftToggle cat out idx checked).2.dirty = true ∧
    (applyLeftToggle cat out idx checked).1.selected
      = reconcileSelectionFromText cat.options out.text := by
  simp only [applyLeftToggle, hopt, Bool.false_eq_true, if_false, hnext, ne_eq,
    not_true_eq_false, ite_false]
  exact ⟨trivial, trivial, trivial, trivial, trivial⟩

theorem claim_C7_witness :
    (["a".toList].getD 0 []).isEmpty = false ∧
    removeOptionToken ([] : Str) ("a".toList) = ([] : Str) ∧
    (applyLeftToggle ⟨"c".toList, "n".toList, ["a".toList], []⟩
        ⟨[], false, [], []⟩ 0 false).2.undo = [] := by
  refine ⟨by decide, by decide, ?_⟩
  have h := claim_C7_toggle_same_text ⟨"c".toList, "n".toList, ["a".toList], []⟩
    ⟨[], false, [], []⟩ 0 false (by decide) (by decide)
  exact h.1

/-!  ## Claim C3: `selected` equals the token-derived set after every op  -/

/-- `sel` is exactly the set of indices whose option occurs as a token. -/
def selMatches (sel : List Nat) (options : List Str) (text : Str) : Prop :=
  ∀ i, i ∈ sel ↔ (i < options.length ∧ hasOptionToken text (options.getD i []) = true)

theorem reconcile_selMatches (options : List Str) (text : Str) :
    selMatches (reconcileSelectionFromText options text) options text := by
  intro i
  rw [reconcileSelectionFromText, List.mem_filter, List.mem_range]
  constructor
  · rintro ⟨h1, h2⟩
    simp only [Bool.and_eq_true] at h2
    exact ⟨h1, h2.2⟩
  · rintro ⟨h1, h2⟩
    refine ⟨h1, ?_⟩
    have hne : (options.getD i []).isEmpty = false := (hasOptionToken_gates h2).2
    simp only [Bool.and_eq_true, Bool.not_eq_true', hne, h2, and_self]

/-- C3 counterexample: at startup, a category whose stored output text is
empty is *not* reconciled, so a stale persisted `selected` (here `[5]`,
out of bounds for a single option) survives and diverges from the
token-derived set (which is empty). -/
theorem claim_C3_counterexample :
    (initReconcileCat ⟨"c".toList, "n".toList, ["a".toList], [5]⟩ none).1.selected = [5] ∧
    (initReconcileCat ⟨"c".toList, "n".toList, ["a".toList], [5]⟩ none).2.text = [] ∧
    reconcileSelectionFromText ["a".toList]
      (initReconcileCat ⟨"c".toList, "n".toList, ["a".toList], [5]⟩ none).2.text = [] := by
  decide

/-- C3 (amended): each in-app state-changing operation — checkbox toggle
(on a truthy option), All/Clear, direct text edit, clear, undo (on a
nonempty stack), and bulk option-list edit — leaves `selected` equal to
exactly the set of in-bounds indices whose option occurs as a token in the
category's output text, fully replacing the prior value.  The startup load
establishes this only for categories whose stored text is nonempty (see
the counterexample). -/
theorem claim_C3_selected_invariant (cat : Category) (out : OutputEntry)
    (idx : Nat) (checked selAll : Bool) (v nameInput : Str) (lines : List Str) :
    ((cat.options.getD idx []).isEmpty = false →
      selMatches (applyLeftToggle cat out idx checked).1.selected
        (applyLeftToggle cat out idx checked).1.options
        (applyLeftToggle cat out idx checked).2.text) ∧
    selMatches (applyLeftAllClear cat out selAll).1.selected
      (applyLeftAllClear cat out selAll).1.options
      (applyLeftAllClear cat out selAll).2.text ∧
    selMatches (applyTextInput cat out v).1.selected
      (applyTextInput cat out v).1.options (applyTextInput cat out v).2.text ∧
    selMatches (clearOutput cat out).1.selected
      (clearOutput cat out).1.options (clearOutput cat out).2.text ∧
    (out.undo ≠ [] →
      selMatches (undoOutput cat out).1.selected
        (undoOutput cat out).1.options (undoOutput cat out).2.text) ∧
    selMatches (saveBulkOptions cat out nameInput lines).selected
      (saveBulkOptions cat out nameInput lines).options out.text := by
  refine ⟨?_, ?_, ?_, ?_, ?_, ?_⟩
  · intro hopt
    simp only [applyLeftToggle, hopt, Bool.false_eq_true, if_false]
    exact reconcile_selMatches _ _
  · simp only [applyLeftAllClear]
    exact reconcile_selMatches _ _
  · simp only [applyTextInput]
    exact reconcile_selMatches _ _
  · simp only [clearOutput]
    exact reconcile_selMatches _ _
  · intro hne
    have hemp : out.undo.isEmpty = false := (isEmpty_eq_false_iff _).mpr hne
    simp only [undoOutput, hemp, Bool.false_eq_true, if_false]
    exact reconcile_selMatches _ _
  · simp only [saveBulkOptions]
    exact reconcile_selMatches _ _

theorem claim_C3_witness :
    (["a".toList].getD 0 []).isEmpty = false ∧
    (["x".toList] ≠ ([] : List Str)) ∧
    selMatches (applyLeftToggle ⟨"c".toList, "n".toList, ["a".toList], []⟩
        ⟨[], false, [], []⟩ 0 true).1.selected
      (applyLeftToggle ⟨"c".toList, "n".toList, ["a".toList], []⟩
        ⟨[], false, [], []⟩ 0 true).1.options
      (applyLeftToggle ⟨"c".toList, "n".toList, ["a".toList], []⟩
        ⟨[], false, [], []⟩ 0 true).2.text ∧
    selMatches (undoOutput ⟨"c".toList, "n".toList, ["a".toList], []⟩
        ⟨"a".toList, true, ["x".toList], "a".toList⟩).1.selected
      (undoOutput ⟨"c".toList, "n".toList, ["a".toList], []⟩
        ⟨"a".toList, true, ["x".toList], "a".toList⟩).1.options
      (undoOutput ⟨"c".toList, "n".toList, ["a".toList], []⟩
        ⟨"a".toList, true, ["x".toList], "a".toList⟩).2.text := by
  refine ⟨by decide, by decide, ?_, ?_⟩
  · exact (claim_C3_selected_invariant ⟨"c".toList, "n".toList, ["a".toList], []⟩
      ⟨[], false, [], []⟩ 0 true true [] [] []).1 (by decide)
  · exact (claim_C3_selected_invariant ⟨"c".toList, "n".toList, ["a".toList], []⟩
      ⟨"a".toList, true, ["x".toList], "a".toList⟩ 0 true true [] [] []).2.2.2.2.1
      (by decide)

/-!  ## Claim C8: undo restores the prior text and selection  -/

theorem pushUndo_getLastD (u : List Str) (x : Str) :
    (pushUndo u x).getLastD [] = x := by
  unfold pushUndo
  by_cases hlen : (u ++ [x]).length > 120
  · rw [if_pos hlen]
    have hu : u ≠ [] := by
      intro hnil
      subst hnil
      simp at hlen
    have hdrop : (u ++ [x]).drop 1 = u.drop 1 ++ [x] := by
      apply List.drop_append_of_le_length
      cases u with
      | nil => exact absurd rfl hu
      | cons a as => simp
    rw [hdrop]
    exact List.getLastD_concat _ _ _
  · rw [if_neg hlen]
    exact List.getLastD_concat _ _ _

theorem pushUndo_ne_nil (u : List Str) (x : Str) : (pushUndo u x).isEmpty = false := by
  unfold pushUndo
  by_cases hlen : (u ++ [x]).length > 120
  · rw [if_pos hlen]
    rw [isEmpty_eq_false_iff]
    intro hnil
    have hl := congrArg List.length hnil
    rw [List.length_drop] at hl
    simp only [List.length_append, List.length_cons, List.length_nil] at hl hlen
    omega
  · rw [if_neg hlen]
    rw [isEmpty_eq_false_iff]
    simp

/-- Popping right after a push restores the pushed text and reconciles the
selection from it. -/
theorem undo_after_push (cat1 : Category) (out1 : OutputEntry) (u : List Str) (x : Str)
    (hu : out1.undo = pushUndo u x) :
    (undoOutput cat1 out1).2.text = x ∧
    (undoOutput cat1 out1).1.selected = reconcileSelectionFromText cat1.options x := by
  have hemp : out1.undo.isEmpty = false := by rw [hu]; exact pushUndo_ne_nil u x
  have hlast : out1.undo.getLastD [] = x := by rw [hu]; exact pushUndo_getLastD u x
  simp only [undoOutput, hemp, Bool.false_eq_true, if_false, hlast]
  exact ⟨trivial, trivial⟩

/-- C8: undo on an empty stack is a silent no-op; and after any of the
four mutating operations that pushed onto the undo stack (checkbox toggle,
All/Clear, direct edit — which keeps `lastObservedValue = text` — and
clear), one `undoOutput` call restores the pre-operation text and the
selection derived from it. -/
theorem claim_C8_undo_restores (cat : Category) (out : OutputEntry) :
    (out.undo = [] → undoOutput cat out = (cat, out)) ∧
    (∀ idx checked, (applyLeftToggle cat out idx checked).2.undo ≠ out.undo →
      (undoOutput (applyLeftToggle cat out idx checked).1
        (applyLeftToggle cat out idx checked).2).2.text = out.text ∧
      (undoOutput (applyLeftToggle cat out idx checked).1
        (applyLeftToggle cat out idx checked).2).1.selected
        = reconcileSelectionFromText cat.options out.text) ∧
    (∀ selAll, (applyLeftAllClear cat out selAll).2.undo ≠ out.undo →
      (undoOutput (applyLeftAllClear cat out selAll).1
        (applyLeftAllClear cat out selAll).2).2.text = out.text ∧
      (undoOutput (applyLeftAllClear cat out selAll).1
        (applyLeftAllClear cat out selAll).2).1.selected
        = reconcileSelectionFromText cat.options out.text) ∧
    (∀ v, out.lastValue = out.text → (applyTextInput cat out v).2.undo ≠ out.undo →
      (undoOutput (applyTextInput cat out v).1 (applyTextInput cat out v).2).2.text
        = out.text ∧
      (undoOutput (applyTextInput cat out v).1 (applyTextInput cat out v).2).1.selected
        = reconcileSelectionFromText cat.options out.text) ∧
    ((undoOutput (clearOutput cat out).1 (clearOutput cat out).2).2.text = out.text ∧
      (undoOutput (clearOutput cat out).1 (clearOutput cat out).2).1.selected
        = reconcileSelectionFromText cat.options out.text) := by
  refine ⟨?_, ?_, ?_, ?_, ?_⟩
  · intro hnil
    have hemp : out.undo.isEmpty = true := (isEmpty_eq_true_iff _).mpr hnil
    simp only [undoOutput, hemp, if_true]
  · intro idx checked hpush
    by_cases hopt : (cat.options.getD idx []).isEmpty = true
    · exfalso
      apply hpush
      show (applyLeftToggle cat out idx checked).2.undo = out.undo
      simp only [applyLeftToggle]
      rw [if_pos hopt]
    · have hoptn : ¬((cat.options.getD idx []).isEmpty = true) := hopt
      by_cases hne : (if checked then addOptionToken out.text (cat.options.getD idx [])
          else removeOptionToken out.text (cat.options.getD idx [])) = out.text
      · exfalso
        apply hpush
        show (applyLeftToggle cat out idx checked).2.undo = out.undo
        simp only [applyLeftToggle]
        rw [if_neg hoptn, if_neg (not_not_intro hne)]
      · simp only [applyLeftToggle]
        rw [if_neg hoptn, if_pos hne]
        exact undo_after_push _ _ out.undo out.text rfl
  · intro selAll hpush
    by_cases hne : (if selAll then
          (cat.options.filter (fun o => !o.isEmpty)).foldl addOptionToken out.text
        else (cat.options.filter (fun o => !o.isEmpty)).foldl removeOptionToken out.text)
        = out.text
    · exfalso
      apply hpush
      show (applyLeftAllClear cat out selAll).2.undo = out.undo
      simp only [applyLeftAllClear]
      rw [if_neg (not_not_intro hne)]
    · simp only [applyLeftAllClear]
      rw [if_pos hne]
      exact undo_after_push _ _ out.undo out.text rfl
  · intro v hlv hpush
    by_cases hne : out.lastValue = v
    · exfalso
      apply hpush
      show (applyTextInput cat out v).2.undo = out.undo
      simp only [applyTextInput]
      rw [if_neg (not_not_intro hne)]
    · simp only [applyTextInput]
      rw [if_pos hne]
      have h := undo_after_push
        ({ cat with selected := reconcileSelectionFromText cat.options v })
        { text := v, dirty := true, undo := pushUndo out.undo out.lastValue,
          lastValue := v } out.undo out.lastValue rfl
      refine ⟨h.1.trans hlv, h.2.trans ?_⟩
      rw [hlv]
  · simp only [clearOutput]
    exact undo_after_push _ _ out.undo out.text rfl

theorem claim_C8_witness :
    ((⟨"a".toList, true, [], "a".toList⟩ : OutputEntry).undo = [] →
      undoOutput ⟨"c".toList, "n".toList, ["a".toList], [0]⟩
        ⟨"a".toList, true, [], "a".toList⟩
        = (⟨"c".toList, "n".toList, ["a".toList], [0]⟩,
           ⟨"a".toList, true, [], "a".toList⟩)) ∧
    ((applyLeftToggle ⟨"c".toList, "n".toList, ["a".toList], []⟩
        ⟨[], false, [], []⟩ 0 true).2.undo ≠ ([] : List Str) ∧
      (undoOutput (applyLeftToggle ⟨"c".toList, "n".toList, ["a".toList], []⟩
          ⟨[], false, [], []⟩ 0 true).1
        (applyLeftToggle ⟨"c".toList, "n".toList, ["a".toList], []⟩
          ⟨[], false, [], []⟩ 0 true).2).2.text = []) := by
  constructor
  · exact (claim_C8_undo_restores ⟨"c".toList, "n".toList, ["a".toList], [0]⟩
      ⟨"a".toList, true, [], "a".toList⟩).1
  · refine ⟨by decide, ?_⟩
    exact ((claim_C8_undo_restores ⟨"c".toList, "n".toList, ["a".toList], []⟩
      ⟨[], false, [], []⟩).2.1 0 true (by decide)).1

/-!  ## Claim C2: toggle-on-then-off round trip  -/

theorem greedyTail_zero (opt rest : Str) :
    greedyTail opt rest 0
      = if leadMatch opt rest then some (rest.drop opt.length) else none := rfl

theorem greedyTail_succ (opt rest : Str) (k : Nat) :
    greedyTail opt rest (k + 1)
      = if leadMatch opt (rest.drop (k + 1)) then
          some ((rest.drop (k + 1)).drop opt.length)
        else greedyTail opt rest k := rfl

theorem replaceStep2Go_nil (o : Str) (fuel : Nat) : replaceStep2Go o fuel [] = [] := by
  cases fuel <;> rfl

theorem replaceStep2Go_cons (o : Str) (n : Nat) (c : Char) (rest : Str) :
    replaceStep2Go o (n + 1) (c :: rest) =
      if c = ',' then
        match greedyTail o rest (rest.takeWhile isWS).length with
        | some rem => replaceStep2Go o n rem
        | none => c :: replaceStep2Go o n rest
      else c :: replaceStep2Go o n rest := rfl

/-- A successful `greedyTail` exhibits a literal occurrence of the option. -/
theorem greedyTail_some_spec {o rest : Str} {K : Nat} {rem : Str}
    (h : greedyTail o rest K = some rem) :
    ∃ j, j ≤ K ∧ leadMatch o (rest.drop j) = true
      ∧ rem = (rest.drop j).drop o.length := by
  induction K with
  | zero =>
    rw [greedyTail_zero] at h
    by_cases hlm : leadMatch o rest = true
    · rw [if_pos hlm] at h
      refine ⟨0, Nat.le_refl 0, by simpa using hlm, ?_⟩
      simpa using (Option.some.inj h).symm
    · rw [if_neg hlm] at h
      exact absurd h (by simp)
  | succ k ih =>
    rw [greedyTail_succ] at h
    by_cases hlm : leadMatch o (rest.drop (k + 1)) = true
    · rw [if_pos hlm] at h
      exact ⟨k + 1, Nat.le_refl _, hlm, (Option.some.inj h).symm⟩
    · rw [if_neg hlm] at h
      obtain ⟨j, hj, hlm2, hrem⟩ := ih h
      exact ⟨j, Nat.le_succ_of_le hj, hlm2, hrem⟩

/-- Core of the round trip: scanning `t ++ ", " ++ o` with the global
`,\s*OPT` replace removes exactly the final `", " ++ o` when the only
literal occurrence of `o` is the final one. -/
theorem replaceStep2Go_append_sep {o : Str}
    (hohead : ∀ c r, o = c :: r → isWS c = false) :
    ∀ fuel t, t.length + 2 + o.length ≤ fuel →
      (∀ p, leadMatch o ((t ++ ',' :: ' ' :: o).drop p) = true → p = t.length + 2) →
      replaceStep2Go o fuel (t ++ ',' :: ' ' :: o) = t := by
  intro fuel
  induction fuel with
  | zero =>
    intro t hlen _
    omega
  | succ n ih =>
    intro t hlen huniq
    cases t with
    | nil =>
      show replaceStep2Go o (n + 1) (([] : Str) ++ ',' :: ' ' :: o) = []
      rw [List.nil_append, replaceStep2Go_cons, if_pos rfl]
      have htk : ((' ' :: o).takeWhile isWS).length = 1 := by
        rw [List.takeWhile_cons, if_pos (by decide : isWS ' ' = true)]
        have hto : o.takeWhile isWS = [] := by
          cases ho : o with
          | nil => rfl
          | cons c r =>
            rw [List.takeWhile_cons, if_neg]
            rw [hohead c r ho]
            simp
        rw [hto]
        rfl
      rw [htk]
      have hg : greedyTail o (' ' :: o) 1 = some [] := by
        rw [greedyTail_succ, show (' ' :: o).drop (0 + 1) = o from rfl, leadMatch_self,
          if_pos rfl, List.drop_length]
      rw [hg]
      exact replaceStep2Go_nil o n
    | cons c t' =>
      have hlen' : t'.length + 2 + o.length ≤ n := by
        simp only [List.length_cons] at hlen
        omega
      have huniq' : ∀ p, leadMatch o ((t' ++ ',' :: ' ' :: o).drop p) = true
          → p = t'.length + 2 := by
        intro p hp
        have hshift : leadMatch o (((c :: t') ++ ',' :: ' ' :: o).drop (p + 1)) = true := by
          rw [List.cons_append, List.drop_succ_cons]
          exact hp
        have := huniq (p + 1) hshift
        simp only [List.length_cons] at this
        omega
      show replaceStep2Go o (n + 1) ((c :: t') ++ ',' :: ' ' :: o) = c :: t'
      rw [List.cons_append, replaceStep2Go_cons]
      by_cases hc : c = ','
      · rw [if_pos hc]
        cases hgt : greedyTail o (t' ++ ',' :: ' ' :: o)
            ((t' ++ ',' :: ' ' :: o).takeWhile isWS).length with
        | some rem =>
          exfalso
          obtain ⟨j, hjle, hlm, _⟩ := greedyTail_some_spec hgt
          have hj := huniq' j hlm
          have hbound : ((t' ++ ',' :: ' ' :: o).takeWhile isWS).length ≤ t'.length :=
            takeWhile_append_length_le t' _ (by decide : isWS ',' = false)
          omega
        | none =>
          show c :: replaceStep2Go o n (t' ++ ',' :: ' ' :: o) = c :: t'
          rw [ih t' hlen' huniq']
      · rw [if_neg hc]
        show c :: replaceStep2Go o n (t' ++ ',' :: ' ' :: o) = c :: t'
        rw [ih t' hlen' huniq']

theorem stripTrailCommaWs_of_stripTrailSep (t : Str) (h : stripTrailSep t = t) :
    stripTrailCommaWs t = t := by
  unfold stripTrailCommaWs
  split
  · rename_i r heq
    exfalso
    unfold stripTrailSep at h
    rw [heq] at h
    have h2 : (r.dropWhile isWS).reverse = t := h
    have h1 := congrArg List.length h2
    have h3 : (r.dropWhile isWS).length ≤ r.length := dropWhile_length_le _ _
    have h4 : (',' :: r).length ≤ t.reverse.length := by
      rw [← heq]
      exact dropWhile_length_le _ _
    simp only [List.length_reverse, List.length_cons] at h1 h4
    omega
  · rfl

theorem hasOptionToken_nil_left (o : Str) : hasOptionToken [] o = false := rfl

theorem addOptionToken_nil {o : Str} (hone : o ≠ []) : addOptionToken [] o = o := by
  simp only [addOptionToken]
  rw [show jsTrim [] = ([] : Str) from rfl]
  rw [(isEmpty_eq_false_iff o).mpr hone]
  simp only [Bool.false_eq_true, if_false]
  rw [if_neg (by rw [hasOptionToken_nil_left]; simp)]
  rw [if_pos (show ([] : Str).isEmpty = true from rfl)]

theorem removeOptionToken_self {o : Str} (ho : jsTrim o = o) (hone : o ≠ []) :
    removeOptionToken o o = [] := by
  have h1 : removeAtStart o o = [] := by
    unfold removeAtStart
    rw [if_pos (leadMatch_self o), List.drop_length]
    rfl
  simp only [removeOptionToken]
  rw [ho]
  rw [if_neg (by rw [(isEmpty_eq_false_iff o).mpr hone]; simp)]
  rw [h1]
  rfl

/-- Appending a fresh option to suitable text: `addOptionToken` produces
exactly `t ++ ", " ++ o`. -/
theorem addOptionToken_append {t o : Str} (hone : o ≠ []) (htne : t ≠ [])
    (htrim : jsTrim t = t) (hst : stripTrailSep t = t)
    (htok : hasOptionToken t o = false) :
    addOptionToken t o = t ++ ',' :: ' ' :: o := by
  have hstc : stripTrailCommaWs t = t := stripTrailCommaWs_of_stripTrailSep t hst
  simp only [addOptionToken]
  rw [htrim]
  rw [(isEmpty_eq_false_iff o).mpr hone]
  simp only [Bool.false_eq_true, if_false]
  rw [if_neg (by rw [htok]; simp)]
  rw [if_neg (by rw [(isEmpty_eq_false_iff t).mpr htne]; simp)]
  rw [hstc, htrim]
  rw [if_neg (by rw [(isEmpty_eq_false_iff t).mpr htne]; simp)]

/-- Removing the just-appended option restores `t` exactly, when `t` is
normalized (trimmed, no stray separators, no whitespace runs) and the only
literal occurrence of `o` in `t ++ ", " ++ o` is the final one. -/
theorem removeOptionToken_append {t o : Str} (ho : jsTrim o = o) (hone : o ≠ [])
    (htrim : jsTrim t = t) (htne : t ≠ [])
    (hsl : stripLeadSep t = t) (hst : stripTrailSep t = t)
    (hcc : collapseCommas t = t) (hcw : collapseWs t = t)
    (huniq : ∀ p, leadMatch o ((t ++ ',' :: ' ' :: o).drop p) = true → p = t.length + 2) :
    removeOptionToken (t ++ ',' :: ' ' :: o) o = t := by
  have hbf : t.dropWhile isWS = t := by
    have := jsTrim_front t
    rwa [htrim] at this
  have hob : o.reverse.dropWhile isWS = o.reverse := by
    have := jsTrim_back o
    rwa [ho] at this
  have hohead : ∀ c r, o = c :: r → isWS c = false := by
    intro c r hcr
    have hof : o.dropWhile isWS = o := by
      have := jsTrim_front o
      rwa [ho] at this
    exact front_clean_head hof hcr
  have hjt : jsTrim (t ++ ',' :: ' ' :: o) = t ++ ',' :: ' ' :: o :=
    jsTrim_append_sep hbf htne hob hone
  have htne2 : (t ++ ',' :: ' ' :: o).isEmpty = false := by
    rw [isEmpty_eq_false_iff]
    simp
  have hras : removeAtStart (t ++ ',' :: ' ' :: o) o = t ++ ',' :: ' ' :: o := by
    unfold removeAtStart
    have hnl : ¬(leadMatch o (t ++ ',' :: ' ' :: o) = true) := by
      intro hlm
      have h0 := huniq 0 (by rwa [List.drop_zero])
      omega
    rw [if_neg hnl]
  have hrs2 : replaceStep2 o (t ++ ',' :: ' ' :: o) = t := by
    unfold replaceStep2
    apply replaceStep2Go_append_sep hohead
    · simp only [List.length_append, List.length_cons]
      omega
    · exact huniq
  simp only [removeOptionToken]
  rw [hjt]
  rw [if_neg (by rw [htne2, (isEmpty_eq_false_iff o).mpr hone]; simp)]
  rw [hras, hrs2, hsl, hst, hcc, hcw, htrim]

/-- The decidable precondition of the round trip: the option is trimmed
and nonempty; the starting text is empty, or is normalized (trimmed, no
leading/trailing separator, no doubled separators, no whitespace runs),
does not yet contain the option as a token, and the only literal
occurrence of the option in `t ++ ", " ++ o` is the appended one. -/
def roundTripPre (t o : Str) : Prop :=
  jsTrim o = o ∧ o ≠ [] ∧
    (t = [] ∨ (jsTrim t = t ∧ t ≠ [] ∧ stripLeadSep t = t ∧ stripTrailSep t = t ∧
      collapseCommas t = t ∧ collapseWs t = t ∧ hasOptionToken t o = false ∧
      ∀ p, p ≤ t.length + 2 + o.length →
        leadMatch o ((t ++ ',' :: ' ' :: o).drop p) = true → p = t.length + 2))

/-- Round trip on the text mutators. -/
theorem remove_add_roundtrip {t o : Str} (hpre : roundTripPre t o) :
    removeOptionToken (addOptionToken t o) o = t := by
  obtain ⟨ho, hone, hcase⟩ := hpre
  rcases hcase with rfl | ⟨htrim, htne, hsl, hst, hcc, hcw, htok, hbd⟩
  · rw [addOptionToken_nil hone, removeOptionToken_self ho hone]
  · rw [addOptionToken_append hone htne htrim hst htok]
    apply removeOptionToken_append ho hone htrim htne hsl hst hcc hcw
    intro p hp
    by_cases hple : p ≤ t.length + 2 + o.length
    · exact hbd p hple hp
    · exfalso
      have hdrop : (t ++ ',' :: ' ' :: o).drop p = [] := by
        apply List.drop_eq_nil_of_le
        simp only [List.length_append, List.length_cons]
        omega
      rw [hdrop] at hp
      cases hco : o with
      | nil => exact hone hco
      | cons c r =>
        rw [hco] at hp
        exact Bool.false_ne_true hp

/-- Text and option-list of `applyLeftToggle` on a truthy option. -/
theorem applyLeftToggle_text_options (cat : Category) (out : OutputEntry)
    (idx : Nat) (checked : Bool)
    (hopt : (cat.options.getD idx []).isEmpty = false) :
    (applyLeftToggle cat out idx checked).2.text
      = (if checked then addOptionToken out.text (cat.options.getD idx [])
         else removeOptionToken out.text (cat.options.getD idx [])) ∧
    (applyLeftToggle cat out idx checked).1.options = cat.options := by
  simp only [applyLeftToggle]
  rw [if_neg (show ¬((cat.options.getD idx []).isEmpty = true) from by rw [hopt]; simp)]
  exact ⟨rfl, rfl⟩

/-- C2 counterexample: starting from text `"a"` with option `"a"`, the
toggle-on is a no-op (the token is already present) and the toggle-off
removes it, so the round trip ends at `""`, not the starting text. -/
theorem claim_C2_counterexample :
    (applyLeftToggle
      (applyLeftToggle ⟨"c".toList, "n".toList, ["a".toList], [0]⟩
        ⟨"a".toList, false, [], "a".toList⟩ 0 true).1
      (applyLeftToggle ⟨"c".toList, "n".toList, ["a".toList], [0]⟩
        ⟨"a".toList, false, [], "a".toList⟩ 0 true).2 0 false).2.text
      ≠ "a".toList := by
  decide

/-- C2 (amended): the on-then-off checkbox round trip returns the free
text to exactly its pre-toggle value provided the toggled option is
trimmed and nonempty and the starting text satisfies `roundTripPre`: it is
empty, or it is normalized, does not already contain the option as a
token, and gains exactly one literal occurrence of the option when
`", " ++ o` is appended.  (Without these conditions the round trip can
fail, e.g. toggling `"a"` on then off over text `"a"` ends at `""`.) -/
theorem claim_C2_round_trip (cat : Category) (out : OutputEntry) (idx : Nat)
    (hpre : roundTripPre out.text (cat.options.getD idx [])) :
    (applyLeftToggle (applyLeftToggle cat out idx true).1
      (applyLeftToggle cat out idx true).2 idx false).2.text = out.text := by
  have hone : cat.options.getD idx [] ≠ [] := hpre.2.1
  have hopt : (cat.options.getD idx []).isEmpty = false :=
    (isEmpty_eq_false_iff _).mpr hone
  obtain ⟨h1t, h1o⟩ := applyLeftToggle_text_options cat out idx true hopt
  have hopt2 : ((applyLeftToggle cat out idx true).1.options.getD idx []).isEmpty
      = false := by
    rw [h1o]
    exact hopt
  obtain ⟨h2t, _⟩ := applyLeftToggle_text_options (applyLeftToggle cat out idx true).1
    (applyLeftToggle cat out idx true).2 idx false hopt2
  rw [h2t, if_neg (by simp), h1o, h1t, if_pos rfl]
  exact remove_add_roundtrip hpre

theorem claim_C2_witness :
    roundTripPre ("x".toList) ((["y".toList] : List Str).getD 0 []) ∧
    (applyLeftToggle
      (applyLeftToggle ⟨"c".toList, "n".toList, ["y".toList], []⟩
        ⟨"x".toList, false, [], "x".toList⟩ 0 true).1
      (applyLeftToggle ⟨"c".toList, "n".toList, ["y".toList], []⟩
        ⟨"x".toList, false, [], "x".toList⟩ 0 true).2 0 false).2.text = "x".toList := by
  have hpre : roundTripPre ("x".toList) ((["y".toList] : List Str).getD 0 []) := by
    refine ⟨by decide, by decide, Or.inr ⟨by decide, by decide, by decide, by decide,
      by decide, by decide, by decide, ?_⟩⟩
    decide
  exact ⟨hpre, claim_C2_round_trip ⟨"c".toList, "n".toList, ["y".toList], []⟩
    ⟨"x".toList, false, [], "x".toList⟩ 0 hpre⟩

/-!  ## Claim C1: removal and the matcher  -/

theorem leadMatch_nonempty_length {o l : Str} (hone : o ≠ [])
    (h : leadMatch o l = true) : 1 ≤ o.length ∧ o.length ≤ l.length := by
  refine ⟨?_, leadMatch_length h⟩
  cases o with
  | nil => exact absurd rfl hone
  | cons c r => simp

theorem removeAtStart_length_le (t o : Str) :
    (removeAtStart t o).length ≤ t.length := by
  simp only [removeAtStart]
  by_cases hlm : leadMatch o t = true
  · rw [if_pos hlm]
    have h1 : ((t.drop o.length).dropWhile isWS).length ≤ t.length :=
      Nat.le_trans (dropWhile_length_le _ _) (by rw [List.length_drop]; omega)
    split
    · rename_i r2 heq
      have h2 : (',' :: r2).length ≤ t.length := by rw [← heq]; exact h1
      simp only [List.length_cons] at h2
      exact Nat.le_trans (dropWhile_length_le _ _) (by omega)
    · exact h1
  · rw [if_neg hlm]

theorem removeAtStart_shrink {t o : Str} (hone : o ≠ [])
    (hlm : leadMatch o t = true) : (removeAtStart t o).length < t.length := by
  obtain ⟨ho1, hole⟩ := leadMatch_nonempty_length hone hlm
  simp only [removeAtStart]
  rw [if_pos hlm]
  have h1 : ((t.drop o.length).dropWhile isWS).length ≤ t.length - o.length :=
    Nat.le_trans (dropWhile_length_le _ _) (by rw [List.length_drop])
  split
  · rename_i r2 heq
    have h2 : (',' :: r2).length ≤ t.length - o.length := by rw [← heq]; exact h1
    simp only [List.length_cons] at h2
    have h3 := dropWhile_length_le isWS r2
    omega
  · omega

theorem removeAtStart_noop {t o : Str} (hlm : ¬(leadMatch o t = true)) :
    removeAtStart t o = t := by
  unfold removeAtStart
  rw [if_neg hlm]

theorem replaceStep2Go_length_le (o : Str) :
    ∀ fuel l, (replaceStep2Go o fuel l).length ≤ l.length := by
  intro fuel
  induction fuel with
  | zero => intro l; exact Nat.le_refl _
  | succ n ih =>
    intro l
    cases l with
    | nil => simp [replaceStep2Go_nil]
    | cons c rest =>
      rw [replaceStep2Go_cons]
      by_cases hc : c = ','
      · rw [if_pos hc]
        cases hgt : greedyTail o rest (rest.takeWhile isWS).length with
        | some rem =>
          obtain ⟨j, _, hlm2, hrem⟩ := greedyTail_some_spec hgt
          have h1 : rem.length ≤ rest.length := by
            rw [hrem, List.length_drop, List.length_drop]
            omega
          have h2 := ih rem
          show (replaceStep2Go o n rem).length ≤ (c :: rest).length
          simp only [List.length_cons]
          omega
        | none =>
          show (c :: replaceStep2Go o n rest).length ≤ (c :: rest).length
          simp only [List.length_cons]
          exact Nat.succ_le_succ (ih rest)
      · rw [if_neg hc]
        simp only [List.length_cons]
        exact Nat.succ_le_succ (ih rest)

theorem stripLeadSep_length_le (t : Str) : (stripLeadSep t).length ≤ t.length := by
  unfold stripLeadSep
  split
  · rename_i r heq
    have h1 : (',' :: r).length ≤ t.length := by
      rw [← heq]; exact dropWhile_length_le _ _
    simp only [List.length_cons] at h1
    exact Nat.le_trans (dropWhile_length_le _ _) (by omega)
  · exact Nat.le_refl _

theorem stripTrailSep_length_le (t : Str) : (stripTrailSep t).length ≤ t.length := by
  unfold stripTrailSep
  split
  · rename_i r heq
    have h1 : (',' :: r).length ≤ t.reverse.length := by
      rw [← heq]; exact dropWhile_length_le _ _
    simp only [List.length_cons, List.length_reverse] at h1
    rw [List.length_reverse]
    exact Nat.le_trans (dropWhile_length_le _ _) (by omega)
  · exact Nat.le_refl _

theorem collapseCommasGo_cons (n : Nat) (c : Char) (rest : Str) :
    collapseCommasGo (n + 1) (c :: rest) =
      if c = ',' then
        match rest.drop (rest.takeWhile isWS).length with
        | ',' :: a2 =>
            ',' :: ' ' :: collapseCommasGo n (a2.drop (a2.takeWhile (fun x => x = ',')).length)
        | _ => c :: collapseCommasGo n rest
      else c :: collapseCommasGo n rest := rfl

theorem collapseCommasGo_length_le :
    ∀ fuel l, (collapseCommasGo fuel l).length ≤ l.length := by
  intro fuel
  induction fuel with
  | zero => intro l; exact Nat.le_refl _
  | succ n ih =>
    intro l
    cases l with
    | nil => exact Nat.le_refl _
    | cons c rest =>
      rw [collapseCommasGo_cons]
      by_cases hc : c = ','
      · rw [if_pos hc]
        cases hm : rest.drop (rest.takeWhile isWS).length with
        | cons d a2 =>
          by_cases hd : d = ','
          · subst hd
            have hlen : rest.length - (rest.takeWhile isWS).length = a2.length + 1 := by
              have := congrArg List.length hm
              rw [List.length_drop] at this
              simpa using this
            have h2 := ih (a2.drop (a2.takeWhile (fun x => x = ',')).length)
            have h3 : (a2.drop (a2.takeWhile (fun x => x = ',')).length).length
                ≤ a2.length := by rw [List.length_drop]; omega
            show (',' :: ' ' :: collapseCommasGo n
              (a2.drop (a2.takeWhile (fun x => x = ',')).length)).length
              ≤ (',' :: rest).length
            simp only [List.length_cons]
            omega
          · split
            · rename_i a2x heq
              exfalso
              injection heq with hd1 _
              exact hd hd1
            · show (c :: collapseCommasGo n rest).length ≤ (c :: rest).length
              simp only [List.length_cons]
              exact Nat.succ_le_succ (ih rest)
        | nil =>
          show (c :: collapseCommasGo n rest).length ≤ (c :: rest).length
          simp only [List.length_cons]
          exact Nat.succ_le_succ (ih rest)
      · rw [if_neg hc]
        simp only [List.length_cons]
        exact Nat.succ_le_succ (ih rest)

theorem collapseWsGo_cons (n : Nat) (c : Char) (rest : Str) :
    collapseWsGo (n + 1) (c :: rest) =
      if isWS c then
        match (rest.takeWhile isWS).length with
        | 0 => c :: collapseWsGo n rest
        | Nat.succ k => ' ' :: collapseWsGo n (rest.drop (Nat.succ k))
      else c :: collapseWsGo n rest := rfl

theorem collapseWsGo_length_le :
    ∀ fuel l, (collapseWsGo fuel l).length ≤ l.length := by
  intro fuel
  induction fuel with
  | zero => intro l; exact Nat.le_refl _
  | succ n ih =>
    intro l
    cases l with
    | nil => exact Nat.le_refl _
    | cons c rest =>
      rw [collapseWsGo_cons]
      by_cases hc : isWS c = true
      · rw [if_pos hc]
        cases hm : (rest.takeWhile isWS).length with
        | zero =>
          show (c :: collapseWsGo n rest).length ≤ (c :: rest).length
          simp only [List.length_cons]
          exact Nat.succ_le_succ (ih rest)
        | succ k =>
          show (' ' :: collapseWsGo n (rest.drop (k + 1))).length ≤ (c :: rest).length
          simp only [List.length_cons]
          have h1 := ih (rest.drop (k + 1))
          have h2 : (rest.drop (k + 1)).length ≤ rest.length := by
            rw [List.length_drop]; omega
          omega
      · rw [if_neg hc]
        simp only [List.length_cons]
        exact Nat.succ_le_succ (ih rest)

/-- A `,\s*OPT` match site inside `l` (the shape consumed by step 2). -/
def PatternAt (o l : Str) : Prop :=
  ∃ q rest, l.drop q = ',' :: rest ∧
    ∃ k, k ≤ (rest.takeWhile isWS).length ∧ leadMatch o (rest.drop k) = true

theorem greedyTail_some_of_exists {o rest : Str} {K : Nat}
    (h : ∃ j, j ≤ K ∧ leadMatch o (rest.drop j) = true) :
    ∃ rem, greedyTail o rest K = some rem := by
  induction K with
  | zero =>
    obtain ⟨j, hj, hlm⟩ := h
    have hj0 : j = 0 := Nat.le_zero.mp hj
    subst hj0
    rw [List.drop_zero] at hlm
    rw [greedyTail_zero, if_pos hlm]
    exact ⟨_, rfl⟩
  | succ k ih =>
    obtain ⟨j, hj, hlm⟩ := h
    rw [greedyTail_succ]
    by_cases hlm2 : leadMatch o (rest.drop (k + 1)) = true
    · rw [if_pos hlm2]
      exact ⟨_, rfl⟩
    · rw [if_neg hlm2]
      apply ih
      refine ⟨j, ?_, hlm⟩
      rcases Nat.lt_or_ge j (k + 1) with hlt | hge
      · omega
      · exfalso
        have hje : j = k + 1 := by omega
        subst hje
        exact hlm2 hlm

/-- Step 2 strictly shrinks any text containing a `,\s*OPT` match site. -/
theorem replaceStep2Go_shrink {o : Str} (hone : o ≠ []) :
    ∀ fuel l, l.length ≤ fuel → PatternAt o l →
      (replaceStep2Go o fuel l).length < l.length := by
  intro fuel
  induction fuel with
  | zero =>
    intro l hl hp
    have hnil : l = [] := List.eq_nil_of_length_eq_zero (Nat.le_zero.mp hl)
    subst hnil
    obtain ⟨q, rest, hd, _⟩ := hp
    rw [List.drop_nil] at hd
    exact absurd hd (by simp)
  | succ n ih =>
    intro l hl hp
    cases l with
    | nil =>
      obtain ⟨q, rest, hd, _⟩ := hp
      rw [List.drop_nil] at hd
      exact absurd hd (by simp)
    | cons c rest0 =>
      rw [replaceStep2Go_cons]
      obtain ⟨q, rest, hd, k, hk, hlm⟩ := hp
      simp only [List.length_cons] at hl
      by_cases hc : c = ','
      · rw [if_pos hc]
        cases hgt : greedyTail o rest0 (rest0.takeWhile isWS).length with
        | some rem =>
          obtain ⟨j, hj, hlm2, hrem⟩ := greedyTail_some_spec hgt
          obtain ⟨ho1, hole⟩ := leadMatch_nonempty_length hone hlm2
          rw [List.length_drop] at hole
          have hlen : rem.length + o.length ≤ rest0.length := by
            rw [hrem, List.length_drop, List.length_drop]
            omega
          have hrec := replaceStep2Go_length_le o n rem
          show (replaceStep2Go o n rem).length < (c :: rest0).length
          simp only [List.length_cons]
          omega
        | none =>
          cases q with
          | zero =>
            exfalso
            rw [List.drop_zero] at hd
            injection hd with hd1 hd2
            subst hd2
            obtain ⟨rem, hrem⟩ := greedyTail_some_of_exists ⟨k, hk, hlm⟩
            rw [hrem] at hgt
            exact absurd hgt (by simp)
          | succ q' =>
            have hp' : PatternAt o rest0 :=
              ⟨q', rest, by rwa [List.drop_succ_cons] at hd, k, hk, hlm⟩
            show (c :: replaceStep2Go o n rest0).length < (c :: rest0).length
            simp only [List.length_cons]
            exact Nat.succ_lt_succ (ih rest0 (by omega) hp')
      · rw [if_neg hc]
        cases q with
        | zero =>
          exfalso
          rw [List.drop_zero] at hd
          injection hd with hd1 _
          exact hc hd1
        | succ q' =>
          have hp' : PatternAt o rest0 :=
            ⟨q', rest, by rwa [List.drop_succ_cons] at hd, k, hk, hlm⟩
          show (c :: replaceStep2Go o n rest0).length < (c :: rest0).length
          simp only [List.length_cons]
          exact Nat.succ_lt_succ (ih rest0 (by omega) hp')

theorem beforeSepOK_comma {t : Str} {p : Nat} (hp : p ≠ 0)
    (h : beforeSepOK t p = true) :
    ∃ B, (t.take p).reverse.dropWhile isWS = ',' :: B := by
  unfold beforeSepOK at h
  rw [Bool.or_eq_true] at h
  rcases h with h | h
  · exact absurd (of_decide_eq_true h) hp
  · split at h
    · rename_i B heq
      exact ⟨B, heq⟩
    · exact absurd h (by simp)

/-- A matcher hit means step 1 fires (option at the start) or step 2 has a
match site (option after a comma and whitespace). -/
theorem hasToken_fire_or_pattern {text o : Str} (h : hasOptionToken text o = true) :
    leadMatch o (jsTrim text) = true ∨ PatternAt o (jsTrim text) := by
  have hgates := hasOptionToken_gates h
  unfold hasOptionToken at h
  rw [if_neg (by rw [hgates.1, hgates.2]; simp)] at h
  unfold regexTest at h
  rw [List.any_eq_true] at h
  obtain ⟨p, hpmem, hmatch⟩ := h
  unfold matchesAt at hmatch
  rw [Bool.and_eq_true, Bool.and_eq_true] at hmatch
  obtain ⟨⟨hlm, hbef⟩, _⟩ := hmatch
  by_cases hp0 : p = 0
  · left
    subst hp0
    rwa [List.drop_zero] at hlm
  · right
    obtain ⟨B, hB⟩ := beforeSepOK_comma hp0 hbef
    set t := jsTrim text with ht
    set R := (t.take p).reverse with hR
    set W := R.takeWhile isWS with hW
    have hdecomp : R = W ++ ',' :: B := by
      conv_lhs => rw [dropWhile_suffix_decomp isWS R]
      rw [hB, ← hW]
    have htake : t.take p = B.reverse ++ ',' :: W.reverse := by
      have h1 : t.take p = R.reverse := by rw [hR, List.reverse_reverse]
      rw [h1, hdecomp, List.reverse_append]
      simp [List.append_assoc]
    have ht2 : t = B.reverse ++ ',' :: (W.reverse ++ t.drop p) := by
      conv_lhs => rw [← List.take_append_drop p t]
      rw [htake]
      simp [List.append_assoc]
    have hall : ∀ c ∈ W.reverse, isWS c = true := by
      intro c hc
      have hc2 : c ∈ W := List.mem_reverse.mp hc
      rw [hW] at hc2
      exact mem_takeWhile_sat hc2
    refine ⟨B.reverse.length, W.reverse ++ t.drop p, ?_, W.reverse.length, ?_, ?_⟩
    · conv_lhs => rw [ht2]
      rw [List.drop_left]
    · rw [takeWhile_append_all (t.drop p) hall, List.length_append]
      exact Nat.le_add_right _ _
    · rw [List.drop_left]
      exact hlm

/-- A matcher hit makes `removeOptionToken` strictly shorten the text. -/
theorem removeOptionToken_shrink {text o : Str} (h : hasOptionToken text o = true) :
    (removeOptionToken text o).length < (jsTrim text).length := by
  have hgates := hasOptionToken_gates h
  have hone : o ≠ [] := (isEmpty_eq_false_iff o).mp hgates.2
  simp only [removeOptionToken]
  rw [if_neg (by rw [hgates.1, hgates.2]; simp)]
  have hchain : ∀ x : Str,
      (jsTrim (collapseWs (collapseCommas (stripTrailSep (stripLeadSep
        (replaceStep2 o x)))))).length ≤ x.length := by
    intro x
    calc (jsTrim (collapseWs (collapseCommas (stripTrailSep (stripLeadSep
            (replaceStep2 o x)))))).length
        ≤ (collapseWs (collapseCommas (stripTrailSep (stripLeadSep
            (replaceStep2 o x))))).length := jsTrim_length_le _
      _ ≤ (collapseCommas (stripTrailSep (stripLeadSep (replaceStep2 o x)))).length :=
            collapseWsGo_length_le _ _
      _ ≤ (stripTrailSep (stripLeadSep (replaceStep2 o x))).length :=
            collapseCommasGo_length_le _ _
      _ ≤ (stripLeadSep (replaceStep2 o x)).length := stripTrailSep_length_le _
      _ ≤ (replaceStep2 o x).length := stripLeadSep_length_le _
      _ ≤ x.length := replaceStep2Go_length_le o _ _
  by_cases hfire : leadMatch o (jsTrim text) = true
  · have h1 : (removeAtStart (jsTrim text) o).length < (jsTrim text).length :=
      removeAtStart_shrink hone hfire
    exact Nat.lt_of_le_of_lt (hchain _) h1
  · rcases hasToken_fire_or_pattern h with hf | hpat
    · exact absurd hf hfire
    · rw [removeAtStart_noop hfire]
      have h2 : (replaceStep2 o (jsTrim text)).length < (jsTrim text).length := by
        unfold replaceStep2
        exact replaceStep2Go_shrink hone _ _ (Nat.le_refl _) hpat
      calc (jsTrim (collapseWs (collapseCommas (stripTrailSep (stripLeadSep
              (replaceStep2 o (jsTrim text))))))).length
          ≤ (collapseWs (collapseCommas (stripTrailSep (stripLeadSep
              (replaceStep2 o (jsTrim text)))))).length := jsTrim_length_le _
        _ ≤ (collapseCommas (stripTrailSep (stripLeadSep
              (replaceStep2 o (jsTrim text))))).length := collapseWsGo_length_le _ _
        _ ≤ (stripTrailSep (stripLeadSep (replaceStep2 o (jsTrim text)))).length :=
              collapseCommasGo_length_le _ _
        _ ≤ (stripLeadSep (replaceStep2 o (jsTrim text))).length :=
              stripTrailSep_length_le _
        _ ≤ (replaceStep2 o (jsTrim text)).length := stripLeadSep_length_le _
        _ < (jsTrim text).length := h2

theorem removeFix_succ (n : Nat) (t o : Str) :
    removeFix (n + 1) t o
      = if hasOptionToken t o then removeFix n (removeOptionToken t o) o else t := rfl

theorem removeFix_no_token :
    ∀ n t o, t.length < n → hasOptionToken (removeFix n t o) o = false := by
  intro n
  induction n with
  | zero => intro t o h; omega
  | succ n ih =>
    intro t o hlt
    rw [removeFix_succ]
    by_cases htok : hasOptionToken t o = true
    · rw [if_pos htok]
      apply ih
      have h1 := removeOptionToken_shrink htok
      have h2 := jsTrim_length_le t
      omega
    · rw [if_neg htok]
      exact Bool.eq_false_iff.mpr htok

/-- C1 counterexample: one `removeOptionToken` call does **not** always
make the matcher fail afterwards.  On `"a, a"` with option `"a"`, the
start-anchored removal consumes `"a, "` (eating the separator), step 2
then finds no `", a"` in the remaining `"a"`, and the result `"a"` still
matches. -/
theorem claim_C1_counterexample :
    hasOptionToken (removeOptionToken ("a, a".toList) ("a".toList)) ("a".toList)
      = true := by
  decide

/-- C1 (amended): a single `removeOptionToken` need not eliminate the
token (see the counterexample), but whenever the matcher still finds the
option the removal strictly shortens the (trimmed) text, so iterating
`removeOptionToken` — at most `length t + 1` times — always reaches a text
on which `hasOptionToken` is false. -/
theorem claim_C1_remove_until_gone (t o : Str) :
    (hasOptionToken t o = true →
      (removeOptionToken t o).length < (jsTrim t).length) ∧
    hasOptionToken (removeFix (t.length + 1) t o) o = false :=
  ⟨fun h => removeOptionToken_shrink h,
   removeFix_no_token (t.length + 1) t o (Nat.lt_succ_self _)⟩

theorem claim_C1_witness :
    hasOptionToken ("a, a".toList) ("a".toList) = true ∧
    (removeOptionToken ("a, a".toList) ("a".toList)).length
      < (jsTrim ("a, a".toList)).length ∧
    hasOptionToken (removeFix ("a, a".toList.length + 1) ("a, a".toList) ("a".toList))
      ("a".toList) = false :=
  ⟨by decide,
   (claim_C1_remove_until_gone ("a, a".toList) ("a".toList)).1 (by decide),
   (claim_C1_remove_until_gone ("a, a".toList) ("a".toList)).2⟩
